import Mathlib

/-
Verification of the HoloClean domain-generation engine (domain/domain.py).

The Python engine is shallowly embedded.  Pandas dictionaries and Series
become association lists keyed by strings, Python sets of strings become
deduplicated lists kept in insertion order, floats become rationals, and
the global seeded random generator becomes an oracle indexed by the number
of primitive random calls made so far.  Fallible operations (dictionary
and list lookups that can raise KeyError or ValueError in Python) return
Except or Option values.
-/

deriving instance DecidableEq for Except

abbrev Attr : Type := String

abbrev Val : Type := String

/-- Association-list lookup, modelling a Python dict or Series lookup keyed
by strings; none models a KeyError. -/
def alookup {β : Type} : List (Attr × β) → Attr → Option β
  | [], _ => none
  | (k, v) :: rest, a => if k = a then some v else alookup rest a

/-- Two-level dict lookup m at k1 then k2, as in single_stats or pair_stats. -/
def lookup2 {β : Type} (m : List (Attr × List (Attr × β))) (k1 k2 : Attr) : Option β :=
  match alookup m k1 with
  | none => none
  | some t => alookup t k2

/-- Python list.remove: drop the first occurrence of a value; none models the
ValueError raised when the value is absent. -/
def remove_first (a : Attr) : List Attr → Option (List Attr)
  | [] => none
  | x :: xs => if x = a then some xs else Option.map (fun l => x :: l) (remove_first a xs)

/-- Python set insertion (one element of set.update), a set being modelled as
a duplicate-free list in insertion order. -/
def setInsert (s : List Val) (v : Val) : List Val :=
  if v ∈ s then s else s ++ [v]

/-- Python set.update with a whole list of values. -/
def setUpdate (s : List Val) (vs : List Val) : List Val :=
  vs.foldl setInsert s

/-- Python list.index: position of the first occurrence of a value; the error
models the ValueError raised when the value is absent. -/
def list_index (dom : List Val) (v : Val) : Except String Nat :=
  if v ∈ dom then .ok (List.indexOf v dom) else .error "ValueError: x not in list"

/-- The state of a DomainEngine object after setup: correlations as computed
by find_correlations, the configuration scalars from the constructor and the
env, the statistics handed over by the dataset collaborator, pair_stats
after preproc_pair_stats, the active attribute set (as the list it is
iterated in), and the external get_cell_id collaborator. -/
structure DomainEngine where
  correlations : List (Attr × List (Attr × ℚ))
  cor_strength : ℚ
  topk : ℚ
  sampling_prob : ℚ
  max_sample : Nat
  single_stats : List (Attr × List (Val × Nat))
  pair_stats : List (Attr × List (Attr × List (Val × List Val)))
  active_attributes : List Attr
  cell_id : Int → Attr → Nat

/-- The seeded global random generator, as an oracle indexed by how many
primitive random calls (random.random or random.sample) happened so far:
rand n is the n-th random.random() outcome and samp n pool k the outcome of
a call random.sample(pool, k) made as the n-th primitive call. -/
structure RandOracle where
  rand : Nat → ℚ
  samp : Nat → List Val → Nat → List Val

/-- Documented contract of random.sample(pool, k) on a duplicate-free
population: the result has exactly k elements, drawn without replacement
from the population. -/
def SampleContract (o : RandOracle) : Prop :=
  ∀ m pool k, List.Nodup pool → k ≤ pool.length →
    (o.samp m pool k).length = k ∧ List.Nodup (o.samp m pool k) ∧
      ∀ x, x ∈ o.samp m pool k → x ∈ pool

/-- Helper of dictify: record one frequency row (v1, v2, c) into the grouped
structure, appending new v1 groups at the end. -/
def addEntry : List (Val × List (Val × Nat)) → Val → Val → Nat → List (Val × List (Val × Nat))
  | [], v1, v2, c => [(v1, [(v2, c)])]
  | (k, m) :: rest, v1, v2, c =>
    if k = v1 then (k, m ++ [(v2, c)]) :: rest else (k, m) :: addEntry rest v1 v2 c

/-- Modelled from the spec: dictify is imported from dataset.dataset, which
is not among the embedded sources.  Per the spec (section 4.2) and the
docstring of preproc_pair_stats it flattens a pairwise frequency table whose
rows are (val1, val2, count) into a mapping from each val1 to the mapping
from each co-occurring val2 to its count, grouping rows by val1. -/
def dictify (df : List (Val × Val × Nat)) : List (Val × List (Val × Nat)) :=
  df.foldl (fun acc r => addEntry acc r.1 r.2.1 r.2.2) []

/-- The pruning comprehension of preproc_pair_stats: keep the co-values
whose count strictly exceeds tau = topk * denominator. -/
def pruneVal (topk : ℚ) (denominator : Nat) (cmap : List (Val × Nat)) : List Val :=
  (cmap.filter (fun p => (p.2 : ℚ) > topk * (denominator : ℚ))).map Prod.fst

/-- The inner val loop of preproc_pair_stats over one dictified table:
for each val1 look up single_stats at key1 and at val1 (KeyError if either
is missing) and prune its co-value map. -/
def pruneTable (topk : ℚ) (singles : List (Attr × List (Val × Nat))) (key1 : Attr) :
    List (Val × List (Val × Nat)) → Except String (List (Val × List Val))
  | [] => .ok []
  | (val, cmap) :: rest =>
    match lookup2 singles key1 val with
    | none => .error "KeyError: single_stats"
    | some denominator =>
      match pruneTable topk singles key1 rest with
      | .error e => .error e
      | .ok tl => .ok ((val, pruneVal topk denominator cmap) :: tl)

/-- The key2 loop of preproc_pair_stats: an empty frequency table yields an
explicit empty dict, a nonempty one is dictified and pruned.  The source
re-tests key1 against the row-id name inside this loop; that test never
fires because the outer loop already skipped that key, so it is not
repeated here. -/
def preprocPairInner (topk : ℚ) (singles : List (Attr × List (Val × Nat))) (key1 : Attr) :
    List (Attr × List (Val × Val × Nat)) → Except String (List (Attr × List (Val × List Val)))
  | [] => .ok []
  | (key2, df) :: rest =>
    match (if df = [] then Except.ok [] else pruneTable topk singles key1 (dictify df)) with
    | .error e => .error e
    | .ok tbl =>
      match preprocPairInner topk singles key1 rest with
      | .error e => .error e
      | .ok tl => .ok ((key2, tbl) :: tl)

/-- preproc_pair_stats: flatten the raw pairwise frequency tables into the
pruned 4-level dictionary, skipping the row-id key. -/
def preproc_pair_stats (topk : ℚ) (singles : List (Attr × List (Val × Nat))) :
    List (Attr × List (Attr × List (Val × Val × Nat))) →
      Except String (List (Attr × List (Attr × List (Val × List Val))))
  | [] => .ok []
  | (key1, inner) :: rest =>
    if key1 = "_tid_" then preproc_pair_stats topk singles rest
    else
      match preprocPairInner topk singles key1 inner with
      | .error e => .error e
      | .ok innerOut =>
        match preproc_pair_stats topk singles rest with
        | .error e => .error e
        | .ok tl => .ok ((key1, innerOut) :: tl)

/-- get_corr_attributes: when attr is a column of the correlation matrix,
filter its series by absolute correlation strictly above cor_strength and
remove attr itself from the surviving index list; the list.remove raises
(none) when attr did not itself survive the filter.  When attr is not a
column the initial empty list is returned. -/
def get_corr_attributes (eng : DomainEngine) (attr : Attr) : Option (List Attr) :=
  match alookup eng.correlations attr with
  | none => some []
  | some series =>
    remove_first attr
      ((series.filter (fun p => |p.2| > eng.cor_strength)).map Prod.fst)

/-- The correlated-attribute loop of get_domain_cell: scan the correlated
attributes in order, skipping attr itself, the synthetic index and the
row id; for a non-null conditioning value look up the per-pair table
(KeyError when the pair of keys is absent), break out of the loop when that
table is the empty dict, otherwise add the candidates for the conditioning
value to the accumulated domain, a missing conditioning value being ignored
when the cell value itself is null and raised otherwise. -/
def corrLoop (eng : DomainEngine) (attr : Attr) (rowf : Attr → Option Val) :
    List Attr → List Val → Except String (List Val)
  | [], dom => .ok dom
  | c :: rest, dom =>
    if c = attr ∨ c = "index" ∨ c = "_tid_" then corrLoop eng attr rowf rest dom
    else
      match rowf c with
      | none => corrLoop eng attr rowf rest dom
      | some cond_val =>
        match alookup eng.pair_stats c with
        | none => .error "KeyError: pair_stats cond_attr"
        | some inner =>
          match alookup inner attr with
          | none => .error "KeyError: pair_stats attr"
          | some s =>
            if s = [] then .ok dom
            else
              match alookup s cond_val with
              | some candidates => corrLoop eng attr rowf rest (setUpdate dom candidates)
              | none =>
                match rowf attr with
                | none => corrLoop eng attr rowf rest dom
                | some _ => .error ("KeyError: " ++ cond_val)

/-- get_domain_cell: gather candidates from the correlated attributes,
discard the null sentinel, then add the initial value (the null sentinel
when the cell value is null) and return it with the domain list. -/
def get_domain_cell (eng : DomainEngine) (attr : Attr) (rowf : Attr → Option Val) :
    Except String (Val × List Val) :=
  match get_corr_attributes eng attr with
  | none => .error "ValueError: remove"
  | some correlated_attributes =>
    match corrLoop eng attr rowf correlated_attributes [] with
    | .error e => .error e
    | .ok d0 =>
      let d1 := d0.filter (fun v => v ≠ "_nan_")
      match rowf attr with
      | none => .ok ("_nan_", setInsert d1 "_nan_")
      | some v => .ok (v, setInsert d1 v)

/-- get_random_domain, at oracle position n: decline when the drawn
random.random() exceeds sampling_prob; otherwise build the value universe
from the single-statistics keys, remove the current value (KeyError when it
is absent), and sample min max_sample size alternatives when any remain. -/
def get_random_domain (eng : DomainEngine) (o : RandOracle) (n : Nat)
    (attr : Attr) (cur_value : Val) : Except String (List Val × Nat) :=
  if o.rand n > eng.sampling_prob then .ok ([], n + 1)
  else
    match alookup eng.single_stats attr with
    | none => .error "KeyError: single_stats attr"
    | some stats =>
      let keys := (stats.map Prod.fst).dedup
      if cur_value ∈ keys then
        let domain_pool := keys.filter (fun v => v ≠ cur_value)
        let size := domain_pool.length
        if size > 0 then
          .ok (o.samp (n + 1) domain_pool (min eng.max_sample size), n + 2)
        else .ok ([], n + 1)
      else .error "KeyError: cur_value"

/-- One row of the DataFrame assembled by generate_domain.  The source
serializes the domain list into a triple-pipe separated string at this
point; the list whose join is stored is kept here, with domain_size its
recorded length.  attrName carries the dict key named attribute. -/
structure CellRec where
  tid : Int
  attrName : Attr
  cid : Nat
  vid : Nat
  domain : List Val
  domain_size : Nat
  init_value : Val
  init_index : Nat
  fixed : Nat
deriving DecidableEq

/-- The body of the per-attribute loop of generate_domain for one cell:
compute the domain, record the cell with a fresh vid when the domain is not
a singleton; otherwise invoke get_random_domain, and on a non-empty result
invoke get_random_domain a second time (as the source does), extend the
domain with that second result and record the cell as fixed; a cell whose
first sample comes back empty is recorded nowhere.  Returns the optional
record together with the next vid and oracle position. -/
def processCell (eng : DomainEngine) (o : RandOracle) (tid : Int)
    (rowf : Attr → Option Val) (attr : Attr) (vid n : Nat) :
    Except String (Option CellRec × Nat × Nat) :=
  match get_domain_cell eng attr rowf with
  | .error e => .error e
  | .ok (init_value, dom) =>
    match list_index dom init_value with
    | .error e => .error e
    | .ok init_value_idx =>
      if dom.length > 1 then
        .ok (some ⟨tid, attr, eng.cell_id tid attr, vid, dom, dom.length,
                   init_value, init_value_idx, 0⟩, vid + 1, n)
      else
        match get_random_domain eng o n attr init_value with
        | .error e => .error e
        | .ok (add_domain, n1) =>
          if add_domain.length > 0 then
            match get_random_domain eng o n1 attr init_value with
            | .error e => .error e
            | .ok (add2, n2) =>
              .ok (some ⟨tid, attr, eng.cell_id tid attr, vid, dom ++ add2,
                         (dom ++ add2).length, init_value, init_value_idx, 1⟩,
                   vid + 1, n2)
          else .ok (none, vid, n1)

/-- The inner loop of generate_domain over the active attributes of one row,
threading the vid counter and the oracle position and collecting the
records appended to app. -/
def attrLoop (eng : DomainEngine) (o : RandOracle) (tid : Int)
    (rowf : Attr → Option Val) :
    List Attr → Nat → Nat → Except String (List CellRec × Nat × Nat)
  | [], vid, n => .ok ([], vid, n)
  | attr :: rest, vid, n =>
    match processCell eng o tid rowf attr vid n with
    | .error e => .error e
    | .ok (oc, vid1, n1) =>
      match attrLoop eng o tid rowf rest vid1 n1 with
      | .error e => .error e
      | .ok (app, vid2, n2) =>
        .ok ((match oc with | some c => c :: app | none => app), vid2, n2)

/-- The outer loop of generate_domain over the dataset rows, each row given
as its tid together with its field lookup. -/
def rowLoop (eng : DomainEngine) (o : RandOracle) :
    List (Int × (Attr → Option Val)) → Nat → Nat →
      Except String (List CellRec × Nat × Nat)
  | [], vid, n => .ok ([], vid, n)
  | (tid, rowf) :: rest, vid, n =>
    match attrLoop eng o tid rowf eng.active_attributes vid n with
    | .error e => .error e
    | .ok (app, vid1, n1) =>
      match rowLoop eng o rest vid1 n1 with
      | .error e => .error e
      | .ok (cells, vid2, n2) => .ok (app ++ cells, vid2, n2)

/-- generate_domain: traverse the rows in dataset order and the active
attributes within each row, starting the vid counter at zero, and return
the collected cell records. -/
def generate_domain (eng : DomainEngine) (o : RandOracle)
    (rows : List (Int × (Attr → Option Val))) : Except String (List CellRec) :=
  match rowLoop eng o rows 0 0 with
  | .error e => .error e
  | .ok (cells, _, _) => .ok cells

/-- Concrete engine used by the concrete evaluations: one active attribute
with no informative correlated co-attribute and a two-value universe. -/
def engC1 : DomainEngine where
  correlations := [("a", [("a", 1)])]
  cor_strength := 0
  topk := 1
  sampling_prob := 0
  max_sample := 5
  single_stats := [("a", [("x", 1), ("y", 1)])]
  pair_stats := []
  active_attributes := ["a"]
  cell_id := fun _ _ => 0

/-- Oracle whose first gate draw passes, whose samples take a prefix of the
pool, and whose later gate draws decline. -/
def oC1 : RandOracle where
  rand := fun n => if n = 0 then 0 else 1
  samp := fun _ pool k => pool.take k

/-- Oracle that always declines the sampling gate. -/
def oC2 : RandOracle where
  rand := fun _ => 1
  samp := fun _ pool k => pool.take k

/-- Oracle that always passes the sampling gate and samples a prefix. -/
def oC8 : RandOracle where
  rand := fun _ => 0
  samp := fun _ pool k => pool.take k

/-- The single data row used by the concrete evaluations. -/
def rowC1 : Attr → Option Val := fun a => if a = "a" then some "x" else none

/-- A row whose every field is null. -/
def rowNull : Attr → Option Val := fun _ => none

/-- The record list of the concrete run used by the concrete evaluations. -/
def rowsC1 : List (Int × (Attr → Option Val)) := [((0 : Int), rowC1)]

/-- Engine variant whose correlation threshold is not exceeded by the
diagonal self-correlation entry. -/
def engC9 : DomainEngine := { engC1 with cor_strength := 1 }

/-- Engine variant with a per-pair statistics table for the pair (c, b)
that is nonempty but lacks the conditioning value looked up. -/
def engC3 : DomainEngine :=
  { engC1 with pair_stats := [("c", [("b", [("w", ["q"])])])] }

/-- Engine variant whose per-pair statistics table for the pair (c, b) is
the explicit empty dict, the never-observed state. -/
def engC4 : DomainEngine :=
  { engC1 with pair_stats := [("c", [("b", [])])] }

/-- Engine variant whose sampling gate always passes. -/
def engC8 : DomainEngine := { engC1 with sampling_prob := 1 }

/-- Row used by the corrLoop evaluations: the conditioning attribute c holds
the value v which the pruned table does not list, and the target b is
non-null. -/
def rowC3 : Attr → Option Val :=
  fun a => if a = "c" then some "v" else if a = "b" then some "u" else none

/-- Inserting a value into a modelled set makes it a member. -/
lemma mem_setInsert_self (s : List Val) (v : Val) : v ∈ setInsert s v := by
  unfold setInsert
  split
  · assumption
  · exact List.mem_append_right _ (List.mem_singleton.mpr rfl)

/-- A successful list_index certifies membership and returns the first
position. -/
lemma list_index_ok {dom : List Val} {v : Val} {i : Nat}
    (h : list_index dom v = .ok i) : v ∈ dom ∧ i = List.indexOf v dom := by
  unfold list_index at h
  split at h
  · exact ⟨by assumption, (Except.ok.inj h).symm⟩
  · cases h

/-- A successful get_domain_cell returns the initial value prescribed by the
null test on the cell, the initial value is a member of the returned domain
and its first index points at it. -/
lemma get_domain_cell_ok {eng : DomainEngine} {attr : Attr} {rowf : Attr → Option Val}
    {init : Val} {dom : List Val}
    (h : get_domain_cell eng attr rowf = .ok (init, dom)) :
    init = (match rowf attr with | none => "_nan_" | some v => v) ∧
      init ∈ dom ∧ dom.get? (List.indexOf init dom) = some init := by
  rcases hc : get_corr_attributes eng attr with _ | cors
  · simp [get_domain_cell, hc] at h
  · rcases hl : corrLoop eng attr rowf cors [] with e | d0
    · simp [get_domain_cell, hc, hl] at h
    · rcases hr : rowf attr with _ | v
      · simp only [get_domain_cell, hc, hl, hr, Except.ok.injEq, Prod.mk.injEq] at h
        obtain ⟨h1, h2⟩ := h
        subst h1; subst h2
        exact ⟨rfl, mem_setInsert_self _ _,
          List.indexOf_get? (mem_setInsert_self _ _)⟩
      · simp only [get_domain_cell, hc, hl, hr, Except.ok.injEq, Prod.mk.injEq] at h
        obtain ⟨h1, h2⟩ := h
        subst h1; subst h2
        exact ⟨rfl, mem_setInsert_self _ _,
          List.indexOf_get? (mem_setInsert_self _ _)⟩

/-- Claim C3: while assembling the domain of a cell, when the per-pair
statistics table for (correlated attribute c, attr) exists and is not the
never-observed empty dict but has no entry for the value of c in the row,
the correlated-attribute scan raises (propagating a KeyError on the value)
if the cell value row attr is non-null, and silently moves on to the
remaining correlated attributes, adding no candidates, if it is null. -/
theorem claim_C3 (eng : DomainEngine) (attr : Attr) (rowf : Attr → Option Val)
    (c : Attr) (rest : List Attr) (dom : List Val) (cv : Val)
    (inner : List (Attr × List (Val × List Val))) (s : List (Val × List Val))
    (hskip : ¬(c = attr ∨ c = "index" ∨ c = "_tid_"))
    (hcv : rowf c = some cv)
    (hp1 : alookup eng.pair_stats c = some inner)
    (hp2 : alookup inner attr = some s)
    (hs : s ≠ [])
    (hmiss : alookup s cv = none) :
    (∀ w, rowf attr = some w →
      corrLoop eng attr rowf (c :: rest) dom = .error ("KeyError: " ++ cv)) ∧
    (rowf attr = none →
      corrLoop eng attr rowf (c :: rest) dom = corrLoop eng attr rowf rest dom) := by
  constructor
  · intro w hw
    simp only [corrLoop, if_neg hskip, hcv, hp1, hp2, if_neg hs, hmiss, hw]
  · intro hw
    simp only [corrLoop, if_neg hskip, hcv, hp1, hp2, if_neg hs, hmiss, hw]

/-- Witness for claim C3 at a concrete engine and row. -/
theorem claim_C3_witness :
    corrLoop engC3 "b" rowC3 ["c"] [] = .error ("KeyError: " ++ "v") :=
  (claim_C3 engC3 "b" rowC3 "c" [] [] "v" [("b", [("w", ["q"])])] [("w", ["q"])]
      (by decide) (by decide) (by decide) (by decide) (by decide) (by decide)).1
    "u" (by decide)

/-- Claim C4: the correlated-attribute scan short-circuits, abandoning all
remaining correlated attributes and returning the domain collected so far,
exactly when the per-pair table is the explicit empty dict recorded for a
never-observed pair; when the table is nonempty (in particular when it is
merely empty after pruning, every candidate list having been pruned away)
scanning continues with the rest of the correlated attributes. -/
theorem claim_C4 (eng : DomainEngine) (attr : Attr) (rowf : Attr → Option Val)
    (c : Attr) (rest : List Attr) (dom : List Val) (cv : Val)
    (inner : List (Attr × List (Val × List Val))) (s : List (Val × List Val))
    (hskip : ¬(c = attr ∨ c = "index" ∨ c = "_tid_"))
    (hcv : rowf c = some cv)
    (hp1 : alookup eng.pair_stats c = some inner)
    (hp2 : alookup inner attr = some s) :
    (s = [] → corrLoop eng attr rowf (c :: rest) dom = .ok dom) ∧
    (∀ cands, alookup s cv = some cands →
      corrLoop eng attr rowf (c :: rest) dom =
        corrLoop eng attr rowf rest (setUpdate dom cands)) ∧
    (s ≠ [] → alookup s cv = none → rowf attr = none →
      corrLoop eng attr rowf (c :: rest) dom = corrLoop eng attr rowf rest dom) := by
  refine ⟨?_, ?_, ?_⟩
  · intro hs
    simp only [corrLoop, if_neg hskip, hcv, hp1, hp2, if_pos hs]
  · intro cands hcands
    have hs : ¬ s = [] := by
      intro h; subst h; simp [alookup] at hcands
    simp only [corrLoop, if_neg hskip, hcv, hp1, hp2, if_neg hs, hcands]
  · intro hs hcands hw
    simp only [corrLoop, if_neg hskip, hcv, hp1, hp2, if_neg hs, hcands, hw]

/-- Witness for claim C4 at a concrete engine whose per-pair table for the
scanned pair is the never-observed empty dict: the remaining correlated
attribute is not scanned and the collected domain is returned unchanged. -/
theorem claim_C4_witness :
    corrLoop engC4 "b" rowC3 ["c", "zz"] ["d"] = .ok ["d"] :=
  (claim_C4 engC4 "b" rowC3 "c" ["zz"] ["d"] "v" [("b", [])] []
      (by decide) (by decide) (by decide) (by decide)).1 rfl

/-- Python list.remove on a duplicate-free list containing the value:
succeeds and returns the list without that value. -/
lemma remove_first_spec {a : Attr} : ∀ {xs : List Attr}, xs.Nodup → a ∈ xs →
    ∃ l, remove_first a xs = some l ∧ a ∉ l ∧ ∀ b, b ∈ l ↔ (b ≠ a ∧ b ∈ xs) := by
  intro xs
  induction xs with
  | nil => intro _ h; cases h
  | cons x xs ih =>
    intro hnd hmem
    by_cases hx : x = a
    · subst hx
      refine ⟨xs, by simp [remove_first], (List.nodup_cons.mp hnd).1, ?_⟩
      intro b
      constructor
      · intro hb
        exact ⟨fun hba => (List.nodup_cons.mp hnd).1 (hba ▸ hb),
          List.mem_cons_of_mem _ hb⟩
      · rintro ⟨hba, hb⟩
        rcases List.mem_cons.mp hb with h | h
        · exact absurd h hba
        · exact h
    · have hmem' : a ∈ xs := by
        rcases List.mem_cons.mp hmem with h | h
        · exact absurd h.symm hx
        · exact h
      obtain ⟨l, h1, h2, h3⟩ := ih (List.nodup_cons.mp hnd).2 hmem'
      refine ⟨x :: l, by simp [remove_first, hx, h1], ?_, ?_⟩
      · intro hc
        rcases List.mem_cons.mp hc with h | h
        · exact hx h.symm
        · exact h2 h
      · intro b
        rw [List.mem_cons, h3 b, List.mem_cons]
        constructor
        · rintro (rfl | ⟨hba, hb⟩)
          · exact ⟨hx, Or.inl rfl⟩
          · exact ⟨hba, Or.inr hb⟩
        · rintro ⟨hba, rfl | hb⟩
          · exact Or.inl rfl
          · exact Or.inr ⟨hba, hb⟩

/-- Counterexample to claim C9 as stated: for a threshold the diagonal
self-correlation entry does not exceed, get_corr_attributes on an attribute
present in the matrix raises (the list.remove fails) instead of returning
the empty list of qualifying attributes. -/
theorem claim_C9_cex :
    get_corr_attributes engC9 "a" = none ∧ get_corr_attributes engC9 "a" ≠ some [] := by
  refine ⟨by decide, by decide⟩

/-- Claim C9 (amended): get_corr_attributes returns the empty list, without
raising, for an attribute absent from the correlation matrix; and for an
attribute present in the matrix it returns exactly the other attributes
whose absolute correlation strictly exceeds the threshold, provided the
absolute value of the attribute's own entry also exceeds the threshold
(as always holds in the pipeline, where the matrix diagonal is one and the
threshold is below one); when that proviso fails the lookup raises. -/
theorem claim_C9 (eng : DomainEngine) (attr : Attr) :
    (alookup eng.correlations attr = none → get_corr_attributes eng attr = some []) ∧
    (∀ series sv, alookup eng.correlations attr = some series →
      (series.map Prod.fst).Nodup → (attr, sv) ∈ series → |sv| > eng.cor_strength →
      ∃ l, get_corr_attributes eng attr = some l ∧ attr ∉ l ∧
        ∀ b, b ∈ l ↔ (b ≠ attr ∧ ∃ v, (b, v) ∈ series ∧ |v| > eng.cor_strength)) := by
  constructor
  · intro h
    simp only [get_corr_attributes, h]
  · intro series sv hlk hnd hmem hgt
    have hmemf : attr ∈ (series.filter
        (fun p => |p.2| > eng.cor_strength)).map Prod.fst :=
      List.mem_map.mpr ⟨(attr, sv),
        List.mem_filter.mpr ⟨hmem, decide_eq_true hgt⟩, rfl⟩
    have hndf : ((series.filter
        (fun p => |p.2| > eng.cor_strength)).map Prod.fst).Nodup :=
      List.Nodup.sublist (List.Sublist.map Prod.fst (List.filter_sublist series)) hnd
    obtain ⟨l, h1, h2, h3⟩ := remove_first_spec hndf hmemf
    refine ⟨l, ?_, h2, ?_⟩
    · simp only [get_corr_attributes, hlk, h1]
    · intro b
      rw [h3 b]
      constructor
      · rintro ⟨hba, hb⟩
        obtain ⟨⟨b1, v⟩, hbv, hfst⟩ := List.mem_map.mp hb
        obtain ⟨hser, hdec⟩ := List.mem_filter.mp hbv
        cases hfst
        exact ⟨hba, v, hser, of_decide_eq_true hdec⟩
      · rintro ⟨hba, v, hser, hv⟩
        exact ⟨hba, List.mem_map.mpr ⟨(b, v),
          List.mem_filter.mpr ⟨hser, decide_eq_true hv⟩, rfl⟩⟩

/-- Witness for the amended claim C9 at a concrete matrix whose diagonal
entry passes the threshold. -/
theorem claim_C9_witness :
    ∃ l, get_corr_attributes engC1 "a" = some l ∧ "a" ∉ l := by
  obtain ⟨l, h1, h2, _⟩ := (claim_C9 engC1 "a").2 [("a", 1)] 1
    (by decide) (by decide) (by decide) (by decide)
  exact ⟨l, h1, h2⟩

/-- Counterexample to claim C2 as stated: a concrete run with a singleton
correlation-derived domain whose fallback sample comes back empty produces
an empty generated domain table, so the cell is not recorded at all, rather
than being recorded with its singleton domain and no variable id. -/
theorem claim_C2_cex :
    get_domain_cell engC1 "a" rowC1 = .ok ("x", ["x"]) ∧
    get_random_domain engC1 oC2 0 "a" "x" = .ok ([], 1) ∧
    generate_domain engC1 oC2 rowsC1 = .ok [] := by
  refine ⟨by decide, by decide, by decide⟩

/-- Claim C2 (amended): for every cell whose domain is a singleton and for
which the fallback sampler returns an empty supplement, no record at all is
appended for the cell: the per-cell step yields nothing, consumes no
variable id, and the traversal continues as if the cell had not existed. -/
theorem claim_C2_thm (eng : DomainEngine) (o : RandOracle) (tid : Int)
    (rowf : Attr → Option Val) (attr : Attr) (vid n : Nat)
    (init : Val) (dom : List Val) (n1 : Nat) (rest : List Attr)
    (h1 : get_domain_cell eng attr rowf = .ok (init, dom))
    (h2 : dom.length ≤ 1)
    (h3 : get_random_domain eng o n attr init = .ok ([], n1)) :
    processCell eng o tid rowf attr vid n = .ok (none, vid, n1) ∧
      attrLoop eng o tid rowf (attr :: rest) vid n =
        attrLoop eng o tid rowf rest vid n1 := by
  have hmem := (get_domain_cell_ok h1).2.1
  have hidx : list_index dom init = .ok (List.indexOf init dom) := by
    unfold list_index; rw [if_pos hmem]
  have hproc : processCell eng o tid rowf attr vid n = .ok (none, vid, n1) := by
    simp only [processCell, h1, hidx]
    rw [if_neg (by omega : ¬ dom.length > 1)]
    simp only [h3]
    rw [if_neg (by simp : ¬ ([] : List Val).length > 0)]
  refine ⟨hproc, ?_⟩
  rcases hrest : attrLoop eng o tid rowf rest vid n1 with e | ⟨app, vid2, n2⟩
  · simp [attrLoop, hproc, hrest]
  · simp [attrLoop, hproc, hrest]

/-- Witness for the amended claim C2 at a concrete declining oracle. -/
theorem claim_C2_witness :
    processCell engC1 oC2 0 rowC1 "a" 0 0 = .ok (none, 0, 1) ∧
      attrLoop engC1 oC2 0 rowC1 ["a"] 0 0 = attrLoop engC1 oC2 0 rowC1 [] 0 1 :=
  claim_C2_thm engC1 oC2 0 rowC1 "a" 0 0 "x" ["x"] 1 []
    (by decide) (by decide) (by decide)

/-- Claim C10: when the sampling gate passes and the null sentinel is not
among the single-statistics keys of the attribute, get_random_domain on a
null current value raises the KeyError coming from removing the current
value from the sampling pool; a cell whose initial value is the null
sentinel with a singleton correlation-derived domain therefore aborts the
per-cell step and, with it, the whole traversal, which propagates errors. -/
theorem claim_C10 (eng : DomainEngine) (o : RandOracle) (tid : Int)
    (rowf : Attr → Option Val) (attr : Attr) (vid n : Nat)
    (dom : List Val) (stats : List (Val × Nat)) (rest : List Attr)
    (hgate : ¬ (o.rand n > eng.sampling_prob))
    (hstats : alookup eng.single_stats attr = some stats)
    (hnan : "_nan_" ∉ (stats.map Prod.fst).dedup)
    (hdom : get_domain_cell eng attr rowf = .ok ("_nan_", dom))
    (hlen : dom.length ≤ 1) :
    get_random_domain eng o n attr "_nan_" = .error "KeyError: cur_value" ∧
    processCell eng o tid rowf attr vid n = .error "KeyError: cur_value" ∧
    attrLoop eng o tid rowf (attr :: rest) vid n = .error "KeyError: cur_value" := by
  have hrand : get_random_domain eng o n attr "_nan_" = .error "KeyError: cur_value" := by
    unfold get_random_domain
    rw [if_neg hgate]
    simp only [hstats]
    rw [if_neg hnan]
  have hmem := (get_domain_cell_ok hdom).2.1
  have hidx : list_index dom "_nan_" = .ok (List.indexOf "_nan_" dom) := by
    unfold list_index; rw [if_pos hmem]
  have hproc : processCell eng o tid rowf attr vid n = .error "KeyError: cur_value" := by
    simp only [processCell, hdom, hidx]
    rw [if_neg (by omega : ¬ dom.length > 1)]
    simp only [hrand]
  exact ⟨hrand, hproc, by simp [attrLoop, hproc]⟩

/-- Witness for claim C10 on a concrete run with an all-null row. -/
theorem claim_C10_witness :
    get_random_domain engC1 oC8 0 "a" "_nan_" = .error "KeyError: cur_value" ∧
      processCell engC1 oC8 0 rowNull "a" 0 0 = .error "KeyError: cur_value" := by
  have h := claim_C10 engC1 oC8 0 rowNull "a" 0 0 ["_nan_"] [("x", 1), ("y", 1)] []
    (by decide) (by decide) (by decide) (by decide) (by decide)
  exact ⟨h.1, h.2.1⟩

/-- Removing one present value from a duplicate-free list by filtering
shortens it by exactly one. -/
lemma length_filter_ne {a : Val} : ∀ {l : List Val}, l.Nodup → a ∈ l →
    (l.filter (fun v => v ≠ a)).length = l.length - 1 := by
  intro l
  induction l with
  | nil => intro _ h; cases h
  | cons x l ih =>
    intro hnd hmem
    by_cases hx : x = a
    · have hnotin : a ∉ l := hx ▸ (List.nodup_cons.mp hnd).1
      have hfl : l.filter (fun v => v ≠ a) = l :=
        List.filter_eq_self.mpr fun b hb =>
          decide_eq_true (fun hba => hnotin (hba ▸ hb))
      rw [hx, List.filter_cons, if_neg (by simp : ¬ (decide (a ≠ a) = true)), hfl]
      simp
    · have hmem' : a ∈ l := by
        rcases List.mem_cons.mp hmem with h | h
        · exact absurd h.symm hx
        · exact h
      have hpos : 1 ≤ l.length := List.length_pos.mpr (List.ne_nil_of_mem hmem')
      have hrec := ih (List.nodup_cons.mp hnd).2 hmem'
      simp only [List.filter_cons, List.length_cons]
      rw [if_pos (decide_eq_true hx)]
      simp only [List.length_cons]
      omega

/-- Claim C8: for a current value present in the single-statistics universe
of the attribute, get_random_domain either declines, returning the empty
supplement, when the drawn gate variate exceeds sampling_prob, or returns a
sample of exactly min max_sample (universe size minus one) values drawn
without replacement from the universe with the current value excluded. -/
theorem claim_C8 (eng : DomainEngine) (o : RandOracle) (n : Nat)
    (attr : Attr) (cur_value : Val) (stats : List (Val × Nat))
    (hstats : alookup eng.single_stats attr = some stats)
    (hcur : cur_value ∈ (stats.map Prod.fst).dedup)
    (hsamp : SampleContract o) :
    (o.rand n > eng.sampling_prob →
      get_random_domain eng o n attr cur_value = .ok ([], n + 1)) ∧
    (¬ (o.rand n > eng.sampling_prob) →
      ∃ res n1, get_random_domain eng o n attr cur_value = .ok (res, n1) ∧
        res.length = min eng.max_sample ((stats.map Prod.fst).dedup.length - 1) ∧
        cur_value ∉ res ∧ res.Nodup ∧
        ∀ x, x ∈ res → x ∈ (stats.map Prod.fst).dedup) := by
  constructor
  · intro hgate
    unfold get_random_domain
    rw [if_pos hgate]
  · intro hgate
    have hnd : ((stats.map Prod.fst).dedup).Nodup := List.nodup_dedup _
    have hplen : (((stats.map Prod.fst).dedup).filter
        (fun v => v ≠ cur_value)).length = (stats.map Prod.fst).dedup.length - 1 :=
      length_filter_ne hnd hcur
    have hpnd : (((stats.map Prod.fst).dedup).filter
        (fun v => v ≠ cur_value)).Nodup := hnd.filter _
    by_cases hsz : (((stats.map Prod.fst).dedup).filter
        (fun v => v ≠ cur_value)).length > 0
    · obtain ⟨hlen, hnodup, hsub⟩ := hsamp (n + 1)
        (((stats.map Prod.fst).dedup).filter (fun v => v ≠ cur_value))
        (min eng.max_sample (((stats.map Prod.fst).dedup).filter
          (fun v => v ≠ cur_value)).length)
        hpnd (Nat.min_le_right _ _)
      refine ⟨_, n + 2, ?_, ?_, ?_, hnodup, ?_⟩
      · unfold get_random_domain
        rw [if_neg hgate]
        simp only [hstats]
        rw [if_pos hcur, if_pos hsz]
      · rw [hlen, hplen]
      · intro hmem
        have hp := List.mem_filter.mp (hsub _ hmem)
        exact (of_decide_eq_true hp.2) rfl
      · intro x hx
        exact (List.mem_filter.mp (hsub x hx)).1
    · refine ⟨[], n + 1, ?_, ?_, by simp, List.nodup_nil, by simp⟩
      · unfold get_random_domain
        rw [if_neg hgate]
        simp only [hstats]
        rw [if_pos hcur, if_neg hsz]
      · rw [List.length_nil, ← hplen]
        omega

/-- The prefix-taking oracle satisfies the random.sample contract. -/
lemma sampleContract_oC8 : SampleContract oC8 := by
  intro m pool k hnd hk
  refine ⟨?_, ?_, ?_⟩
  · show (pool.take k).length = k
    rw [List.length_take]
    exact Nat.min_eq_left hk
  · exact List.Nodup.sublist (List.take_sublist k pool) hnd
  · intro x hx
    exact List.take_subset _ _ hx

/-- Witness for claim C8 on a concrete passing gate and a two-value
universe. -/
theorem claim_C8_witness :
    ∃ res n1, get_random_domain engC8 oC8 0 "a" "x" = .ok (res, n1) ∧
      res.length = min engC8.max_sample
        ((([("x", 1), ("y", 1)] : List (Val × Nat)).map Prod.fst).dedup.length - 1) ∧
      "x" ∉ res ∧ res.Nodup ∧
      ∀ x, x ∈ res → x ∈ (([("x", 1), ("y", 1)] : List (Val × Nat)).map Prod.fst).dedup :=
  (claim_C8 engC8 oC8 0 "a" "x" [("x", 1), ("y", 1)]
    (by decide) (by decide) sampleContract_oC8).2 (by decide)

/-- Claim C1 (code bug exhibit): in a concrete run with a singleton
correlation-derived domain, the first fallback call returns the non-empty
supplement consisting of the one alternative value, yet the recorded cell
keeps the bare singleton domain of size one while receiving variable id
zero and fixed one, because the source calls the sampler a second time when
extending the domain and that independent second call declines. -/
theorem claim_C1_run :
    get_random_domain engC1 oC1 0 "a" "x" = .ok (["y"], 2) ∧
    get_random_domain engC1 oC1 2 "a" "x" = .ok ([], 3) ∧
    generate_domain engC1 oC1 rowsC1 =
      .ok [⟨0, "a", 0, 0, ["x"], 1, "x", 0, 1⟩] := by
  refine ⟨by decide, by decide, by decide⟩

/-- The per-cell step either emits no record and keeps the vid counter, or
emits one record carrying the current vid and increments the counter. -/
lemma processCell_vid {eng : DomainEngine} {o : RandOracle} {tid : Int}
    {rowf : Attr → Option Val} {attr : Attr} {vid n : Nat}
    {oc : Option CellRec} {vid1 n1 : Nat}
    (h : processCell eng o tid rowf attr vid n = .ok (oc, vid1, n1)) :
    (oc = none ∧ vid1 = vid) ∨ (∃ c, oc = some c ∧ c.vid = vid ∧ vid1 = vid + 1) := by
  unfold processCell at h
  split at h
  · cases h
  · split at h
    · cases h
    · split at h
      · simp only [Except.ok.injEq, Prod.mk.injEq] at h
        exact Or.inr ⟨_, h.1.symm, rfl, h.2.1.symm⟩
      · split at h
        · cases h
        · split at h
          · split at h
            · cases h
            · simp only [Except.ok.injEq, Prod.mk.injEq] at h
              exact Or.inr ⟨_, h.1.symm, rfl, h.2.1.symm⟩
          · simp only [Except.ok.injEq, Prod.mk.injEq] at h
            exact Or.inl ⟨h.1.symm, h.2.1.symm⟩

/-- Over one row, the emitted records carry consecutive vids starting at the
incoming counter, which advances by their number. -/
lemma attrLoop_vids {eng : DomainEngine} {o : RandOracle} {tid : Int}
    {rowf : Attr → Option Val} : ∀ {attrs : List Attr} {vid n : Nat}
    {app : List CellRec} {vid1 n1 : Nat},
    attrLoop eng o tid rowf attrs vid n = .ok (app, vid1, n1) →
    List.map (fun c => c.vid) app = List.range' vid app.length ∧
      vid1 = vid + app.length := by
  intro attrs
  induction attrs with
  | nil =>
    intro vid n app vid1 n1 h
    simp only [attrLoop, Except.ok.injEq, Prod.mk.injEq] at h
    obtain ⟨h1, h2, _⟩ := h
    subst h2
    rw [← h1]
    simp
  | cons a rest ih =>
    intro vid n app vid1 n1 h
    rcases hp : processCell eng o tid rowf a vid n with e | ⟨oc, vidA, nA⟩
    · simp only [attrLoop, hp] at h
      exact Except.noConfusion h
    · rcases processCell_vid hp with ⟨ho, hv1⟩ | ⟨c, ho, hcv, hv1⟩ <;> subst ho
      · rcases hrest : attrLoop eng o tid rowf rest vidA nA with e | ⟨app2, vid2, n2⟩
        · simp only [attrLoop, hp, hrest] at h
          exact Except.noConfusion h
        · simp only [attrLoop, hp, hrest, Except.ok.injEq, Prod.mk.injEq] at h
          obtain ⟨h1, h2, _⟩ := h
          obtain ⟨hm, hv⟩ := ih hrest
          subst h1
          subst hv1
          exact ⟨hm, by omega⟩
      · rcases hrest : attrLoop eng o tid rowf rest vidA nA with e | ⟨app2, vid2, n2⟩
        · simp only [attrLoop, hp, hrest] at h
          exact Except.noConfusion h
        · simp only [attrLoop, hp, hrest, Except.ok.injEq, Prod.mk.injEq] at h
          obtain ⟨h1, h2, _⟩ := h
          obtain ⟨hm, hv⟩ := ih hrest
          subst h1
          constructor
          · simp only [List.map_cons, List.length_cons, hcv]
            rw [List.range'_succ, hm, hv1]
          · simp only [List.length_cons]
            omega

/-- Across all rows, the emitted records carry consecutive vids starting at
the incoming counter, which advances by their number. -/
lemma rowLoop_vids {eng : DomainEngine} {o : RandOracle} :
    ∀ {rows : List (Int × (Attr → Option Val))} {vid n : Nat}
    {cells : List CellRec} {vid1 n1 : Nat},
    rowLoop eng o rows vid n = .ok (cells, vid1, n1) →
    List.map (fun c => c.vid) cells = List.range' vid cells.length ∧
      vid1 = vid + cells.length := by
  intro rows
  induction rows with
  | nil =>
    intro vid n cells vid1 n1 h
    simp only [rowLoop, Except.ok.injEq, Prod.mk.injEq] at h
    obtain ⟨h1, h2, _⟩ := h
    subst h2
    rw [← h1]
    simp
  | cons r rest ih =>
    obtain ⟨tid, rowf⟩ := r
    intro vid n cells vid1 n1 h
    rcases ha : attrLoop eng o tid rowf eng.active_attributes vid n with e | ⟨app, vidA, nA⟩
    · simp only [rowLoop, ha] at h
      exact Except.noConfusion h
    · rcases hrest : rowLoop eng o rest vidA nA with e | ⟨cells2, vid2, n2⟩
      · simp only [rowLoop, ha, hrest] at h
        exact Except.noConfusion h
      · simp only [rowLoop, ha, hrest, Except.ok.injEq, Prod.mk.injEq] at h
        obtain ⟨h1, h2, _⟩ := h
        obtain ⟨hm1, hv1⟩ := attrLoop_vids ha
        obtain ⟨hm2, hv2⟩ := ih hrest
        subst h1
        constructor
        · rw [List.map_append, List.length_append, hm1, hm2, hv1]
          rw [Nat.add_comm app.length cells2.length, List.range'_append_1]
        · rw [List.length_append]
          omega

/-- Claim C6: across one full run of generate_domain the assigned variable
ids, read off the emitted records in traversal order, are exactly the dense
zero-based sequence with no gaps. -/
theorem claim_C6 (eng : DomainEngine) (o : RandOracle)
    (rows : List (Int × (Attr → Option Val))) (cells : List CellRec)
    (h : generate_domain eng o rows = .ok cells) :
    List.map (fun c => c.vid) cells = List.range cells.length := by
  unfold generate_domain at h
  rcases hr : rowLoop eng o rows 0 0 with e | ⟨cells0, vid1, n1⟩
  · rw [hr] at h
    exact Except.noConfusion h
  · rw [hr] at h
    cases h
    rw [List.range_eq_range']
    exact (rowLoop_vids hr).1

/-- Witness for claim C6 on the concrete run that records one cell. -/
theorem claim_C6_witness :
    ∃ cells, generate_domain engC1 oC1 rowsC1 = .ok cells ∧
      List.map (fun c => c.vid) cells = List.range cells.length :=
  ⟨[⟨0, "a", 0, 0, ["x"], 1, "x", 0, 1⟩], by decide,
    claim_C6 engC1 oC1 rowsC1 _ (by decide)⟩

/-- Any record emitted by the per-cell step has its initial value inside its
recorded domain list, at the position stored in init_index. -/
lemma processCell_cell_ok {eng : DomainEngine} {o : RandOracle} {tid : Int}
    {rowf : Attr → Option Val} {attr : Attr} {vid n : Nat}
    {oc : Option CellRec} {vid1 n1 : Nat}
    (h : processCell eng o tid rowf attr vid n = .ok (oc, vid1, n1)) :
    ∀ c, oc = some c → c.init_value ∈ c.domain ∧
      c.domain.get? c.init_index = some c.init_value := by
  rcases hg : get_domain_cell eng attr rowf with e | ⟨init, dom⟩
  · simp only [processCell, hg] at h
    exact fun c hc => Except.noConfusion h
  · rcases hi : list_index dom init with e | idx
    · simp only [processCell, hg, hi] at h
      exact fun c hc => Except.noConfusion h
    · obtain ⟨hmem, hidx⟩ := list_index_ok hi
      have hget := (get_domain_cell_ok hg).2.2
      by_cases hlen : dom.length > 1
      · simp only [processCell, hg, hi, if_pos hlen, Except.ok.injEq,
          Prod.mk.injEq] at h
        obtain ⟨h1, _, _⟩ := h
        intro c hc
        rw [← h1] at hc
        cases Option.some.inj hc
        refine ⟨hmem, ?_⟩
        show dom.get? idx = some init
        rw [hidx]
        exact hget
      · rcases hr1 : get_random_domain eng o n attr init with e | ⟨add1, nA⟩
        · simp only [processCell, hg, hi, if_neg hlen, hr1] at h
          exact fun c hc => Except.noConfusion h
        · by_cases hane : add1.length > 0
          · rcases hr2 : get_random_domain eng o nA attr init with e | ⟨add2, nB⟩
            · simp only [processCell, hg, hi, if_neg hlen, hr1, if_pos hane, hr2] at h
              exact fun c hc => Except.noConfusion h
            · simp only [processCell, hg, hi, if_neg hlen, hr1, if_pos hane, hr2,
                Except.ok.injEq, Prod.mk.injEq] at h
              obtain ⟨h1, _, _⟩ := h
              intro c hc
              rw [← h1] at hc
              cases Option.some.inj hc
              refine ⟨List.mem_append_left _ hmem, ?_⟩
              show (dom ++ add2).get? idx = some init
              rw [hidx, List.get?_append (List.indexOf_lt_length.mpr hmem)]
              exact hget
          · simp only [processCell, hg, hi, if_neg hlen, hr1, if_neg hane,
              Except.ok.injEq, Prod.mk.injEq] at h
            obtain ⟨h1, _, _⟩ := h
            intro c hc
            rw [← h1] at hc
            cases hc

/-- Every record emitted along one row satisfies the init-index invariant. -/
lemma attrLoop_cells_ok {eng : DomainEngine} {o : RandOracle} {tid : Int}
    {rowf : Attr → Option Val} : ∀ {attrs : List Attr} {vid n : Nat}
    {app : List CellRec} {vid1 n1 : Nat},
    attrLoop eng o tid rowf attrs vid n = .ok (app, vid1, n1) →
    ∀ c ∈ app, c.init_value ∈ c.domain ∧
      c.domain.get? c.init_index = some c.init_value := by
  intro attrs
  induction attrs with
  | nil =>
    intro vid n app vid1 n1 h
    simp only [attrLoop, Except.ok.injEq, Prod.mk.injEq] at h
    rw [← h.1]
    simp
  | cons a rest ih =>
    intro vid n app vid1 n1 h
    rcases hp : processCell eng o tid rowf a vid n with e | ⟨oc, vidA, nA⟩
    · simp only [attrLoop, hp] at h
      exact Except.noConfusion h
    · rcases hrest : attrLoop eng o tid rowf rest vidA nA with e | ⟨app2, vid2, n2⟩
      · simp only [attrLoop, hp, hrest] at h
        exact Except.noConfusion h
      · rcases oc with _ | c0
        · simp only [attrLoop, hp, hrest, Except.ok.injEq, Prod.mk.injEq] at h
          rw [← h.1]
          exact ih hrest
        · simp only [attrLoop, hp, hrest, Except.ok.injEq, Prod.mk.injEq] at h
          rw [← h.1]
          intro c hc
          rcases List.mem_cons.mp hc with hc | hc
          · subst hc
            exact processCell_cell_ok hp c rfl
          · exact ih hrest c hc

/-- Every record emitted across all rows satisfies the init-index
invariant. -/
lemma rowLoop_cells_ok {eng : DomainEngine} {o : RandOracle} :
    ∀ {rows : List (Int × (Attr → Option Val))} {vid n : Nat}
    {cells : List CellRec} {vid1 n1 : Nat},
    rowLoop eng o rows vid n = .ok (cells, vid1, n1) →
    ∀ c ∈ cells, c.init_value ∈ c.domain ∧
      c.domain.get? c.init_index = some c.init_value := by
  intro rows
  induction rows with
  | nil =>
    intro vid n cells vid1 n1 h
    simp only [rowLoop, Except.ok.injEq, Prod.mk.injEq] at h
    rw [← h.1]
    simp
  | cons r rest ih =>
    obtain ⟨tid, rowf⟩ := r
    intro vid n cells vid1 n1 h
    rcases ha : attrLoop eng o tid rowf eng.active_attributes vid n with e | ⟨app, vidA, nA⟩
    · simp only [rowLoop, ha] at h
      exact Except.noConfusion h
    · rcases hrest : rowLoop eng o rest vidA nA with e | ⟨cells2, vid2, n2⟩
      · simp only [rowLoop, ha, hrest] at h
        exact Except.noConfusion h
      · simp only [rowLoop, ha, hrest, Except.ok.injEq, Prod.mk.injEq] at h
        rw [← h.1]
        intro c hc
        rcases List.mem_append.mp hc with hc | hc
        · exact attrLoop_cells_ok ha c hc
        · exact ih hrest c hc

/-- Claim C5: every successful get_domain_cell returns a domain containing
the initial value, which is the null sentinel exactly when the cell value
is null, with the first index locating it; and every cell record emitted by
generate_domain stores an init_index that locates init_value inside the
recorded domain list, in particular for null cells whose domain carries the
sentinel itself. -/
theorem claim_C5 :
    (∀ (eng : DomainEngine) (attr : Attr) (rowf : Attr → Option Val)
        (init : Val) (dom : List Val),
      get_domain_cell eng attr rowf = .ok (init, dom) →
      init = (match rowf attr with | none => "_nan_" | some v => v) ∧
        init ∈ dom ∧ dom.get? (List.indexOf init dom) = some init) ∧
    (∀ (eng : DomainEngine) (o : RandOracle)
        (rows : List (Int × (Attr → Option Val))) (cells : List CellRec),
      generate_domain eng o rows = .ok cells →
      ∀ c ∈ cells, c.init_value ∈ c.domain ∧
        c.domain.get? c.init_index = some c.init_value) := by
  constructor
  · intro eng attr rowf init dom h
    exact get_domain_cell_ok h
  · intro eng o rows cells h c hc
    unfold generate_domain at h
    rcases hr : rowLoop eng o rows 0 0 with e | ⟨cells0, vid1, n1⟩
    · rw [hr] at h
      exact Except.noConfusion h
    · rw [hr] at h
      cases h
      exact rowLoop_cells_ok hr c hc

/-- Witness for claim C5 on a concrete null cell: the returned domain is the
singleton null sentinel and the recorded index points at it. -/
theorem claim_C5_witness :
    ("_nan_" : Val) ∈ (["_nan_"] : List Val) ∧
      (["_nan_"] : List Val).get? (List.indexOf "_nan_" ["_nan_"]) = some "_nan_" := by
  have h := claim_C5.1 engC1 "a" rowNull "_nan_" ["_nan_"] (by decide)
  exact ⟨h.2.1, h.2.2⟩

/-- A value surviving the pruning comprehension has a count in the dictified
map strictly above the threshold. -/
lemma pruneVal_mem {topk : ℚ} {denominator : Nat} {cmap : List (Val × Nat)} {c : Val}
    (h : c ∈ pruneVal topk denominator cmap) :
    ∃ cnt, (c, cnt) ∈ cmap ∧ (cnt : ℚ) > topk * (denominator : ℚ) := by
  obtain ⟨⟨c1, cnt⟩, hmem, hfst⟩ := List.mem_map.mp h
  obtain ⟨hin, hdec⟩ := List.mem_filter.mp hmem
  cases hfst
  exact ⟨cnt, hin, of_decide_eq_true hdec⟩

/-- Every entry of a successfully pruned table comes from an entry of the
dictified input, pruned with the denominator found in single_stats. -/
lemma pruneTable_mem {topk : ℚ} {singles : List (Attr × List (Val × Nat))}
    {key1 : Attr} : ∀ {d : List (Val × List (Val × Nat))} {tbl : List (Val × List Val)},
    pruneTable topk singles key1 d = .ok tbl →
    ∀ valA cands, (valA, cands) ∈ tbl →
      ∃ cmap denom, (valA, cmap) ∈ d ∧ lookup2 singles key1 valA = some denom ∧
        cands = pruneVal topk denom cmap := by
  intro d
  induction d with
  | nil =>
    intro tbl h valA cands hmem
    simp only [pruneTable, Except.ok.injEq] at h
    rw [← h] at hmem
    cases hmem
  | cons p rest ih =>
    obtain ⟨val, cmap⟩ := p
    intro tbl h valA cands hmem
    rcases hlk : lookup2 singles key1 val with _ | denom
    · simp only [pruneTable, hlk] at h
      exact Except.noConfusion h
    · rcases hrec : pruneTable topk singles key1 rest with e | tl
      · simp only [pruneTable, hlk, hrec] at h
        exact Except.noConfusion h
      · simp only [pruneTable, hlk, hrec, Except.ok.injEq] at h
        rw [← h] at hmem
        rcases List.mem_cons.mp hmem with hc | hc
        · injection hc with h1 h2
          subst h1
          exact ⟨cmap, denom, List.mem_cons_self _ _, hlk, h2⟩
        · obtain ⟨cmap2, denom2, hm, hl, he⟩ := ih hrec valA cands hc
          exact ⟨cmap2, denom2, List.mem_cons_of_mem _ hm, hl, he⟩

/-- Every pair entry of the input appears in the output of the inner key2
loop: an empty frequency table as the explicit empty dict, a nonempty one
as its dictified pruned table. -/
lemma preprocPairInner_mem {topk : ℚ} {singles : List (Attr × List (Val × Nat))}
    {key1 : Attr} : ∀ {inner : List (Attr × List (Val × Val × Nat))}
    {iOut : List (Attr × List (Val × List Val))},
    preprocPairInner topk singles key1 inner = .ok iOut →
    ∀ B df, (B, df) ∈ inner →
      ∃ tbl, (B, tbl) ∈ iOut ∧ (df = [] → tbl = []) ∧
        (df ≠ [] → pruneTable topk singles key1 (dictify df) = .ok tbl) := by
  intro inner
  induction inner with
  | nil =>
    intro iOut h B df hmem
    cases hmem
  | cons p rest ih =>
    obtain ⟨key2, df2⟩ := p
    intro iOut h B df hmem
    by_cases hdf : df2 = []
    · rcases hrec : preprocPairInner topk singles key1 rest with e | tl
      · simp only [preprocPairInner, if_pos hdf, hrec] at h
        exact Except.noConfusion h
      · simp only [preprocPairInner, if_pos hdf, hrec, Except.ok.injEq] at h
        rw [← h]
        rcases List.mem_cons.mp hmem with hc | hc
        · injection hc with h1 h2
          subst h1
          subst h2
          exact ⟨[], List.mem_cons_self _ _, fun _ => rfl, fun hne => absurd hdf hne⟩
        · obtain ⟨tbl, hm, he, hn⟩ := ih hrec B df hc
          exact ⟨tbl, List.mem_cons_of_mem _ hm, he, hn⟩
    · rcases hpt : pruneTable topk singles key1 (dictify df2) with e | tbl2
      · simp only [preprocPairInner, if_neg hdf, hpt] at h
        exact Except.noConfusion h
      · rcases hrec : preprocPairInner topk singles key1 rest with e | tl
        · simp only [preprocPairInner, if_neg hdf, hpt, hrec] at h
          exact Except.noConfusion h
        · simp only [preprocPairInner, if_neg hdf, hpt, hrec, Except.ok.injEq] at h
          rw [← h]
          rcases List.mem_cons.mp hmem with hc | hc
          · injection hc with h1 h2
            subst h1
            subst h2
            exact ⟨tbl2, List.mem_cons_self _ _, fun he => absurd he hdf,
              fun _ => hpt⟩
          · obtain ⟨tbl, hm, he, hn⟩ := ih hrec B df hc
            exact ⟨tbl, List.mem_cons_of_mem _ hm, he, hn⟩

/-- Every non-row-id attribute of the input appears in the preprocessed
output with its inner tables processed by the key2 loop. -/
lemma preproc_mem {topk : ℚ} {singles : List (Attr × List (Val × Nat))} :
    ∀ {ps : List (Attr × List (Attr × List (Val × Val × Nat)))}
    {out : List (Attr × List (Attr × List (Val × List Val)))},
    preproc_pair_stats topk singles ps = .ok out →
    ∀ A iIn, (A, iIn) ∈ ps → A ≠ "_tid_" →
      ∃ iOut, (A, iOut) ∈ out ∧ preprocPairInner topk singles A iIn = .ok iOut := by
  intro ps
  induction ps with
  | nil =>
    intro out h A iIn hmem
    cases hmem
  | cons p rest ih =>
    obtain ⟨key1, inner⟩ := p
    intro out h A iIn hmem hAt
    by_cases htid : key1 = "_tid_"
    · rw [preproc_pair_stats, if_pos htid] at h
      rcases List.mem_cons.mp hmem with hc | hc
      · injection hc with h1 h2
        exact absurd (h1.symm ▸ htid) hAt
      · exact ih h A iIn hc hAt
    · rcases hin : preprocPairInner topk singles key1 inner with e | innerOut
      · rw [preproc_pair_stats, if_neg htid] at h
        rw [hin] at h
        exact Except.noConfusion h
      · rcases hrec : preproc_pair_stats topk singles rest with e | tl
        · rw [preproc_pair_stats, if_neg htid] at h
          rw [hin, hrec] at h
          exact Except.noConfusion h
        · rw [preproc_pair_stats, if_neg htid] at h
          rw [hin, hrec] at h
          cases h
          rcases List.mem_cons.mp hmem with hc | hc
          · injection hc with h1 h2
            subst h1
            subst h2
            exact ⟨innerOut, List.mem_cons_self _ _, hin⟩
          · obtain ⟨iOut, hm, he⟩ := ih hrec A iIn hc hAt
            exact ⟨iOut, List.mem_cons_of_mem _ hm, he⟩

/-- Claim C7: after preproc_pair_stats, every candidate retained for a pair
(A, B) and a value of A has a dictified co-occurrence count strictly above
topk times the single-statistics count of that value of A; and every pair
whose raw frequency table has zero rows appears explicitly with the empty
structure rather than as a missing key. -/
theorem claim_C7 (topk : ℚ) (singles : List (Attr × List (Val × Nat)))
    (ps : List (Attr × List (Attr × List (Val × Val × Nat))))
    (out : List (Attr × List (Attr × List (Val × List Val))))
    (h : preproc_pair_stats topk singles ps = .ok out) :
    ∀ A iIn, (A, iIn) ∈ ps → A ≠ "_tid_" →
    ∃ iOut, (A, iOut) ∈ out ∧
      ∀ B df, (B, df) ∈ iIn →
        ∃ tbl, (B, tbl) ∈ iOut ∧ (df = [] → tbl = []) ∧
          ∀ valA cands, (valA, cands) ∈ tbl → ∀ c, c ∈ cands →
            ∃ cmap cnt denom, (valA, cmap) ∈ dictify df ∧ (c, cnt) ∈ cmap ∧
              lookup2 singles A valA = some denom ∧
              (cnt : ℚ) > topk * (denom : ℚ) := by
  intro A iIn hA hAt
  obtain ⟨iOut, hiOut, hInner⟩ := preproc_mem h A iIn hA hAt
  refine ⟨iOut, hiOut, ?_⟩
  intro B df hB
  obtain ⟨tbl, htbl, hemp, hne⟩ := preprocPairInner_mem hInner B df hB
  refine ⟨tbl, htbl, hemp, ?_⟩
  intro valA cands hvc c hc
  by_cases hdf : df = []
  · rw [hemp hdf] at hvc
    cases hvc
  · obtain ⟨cmap, denom, hcm, hlk, hce⟩ := pruneTable_mem (hne hdf) valA cands hvc
    subst hce
    obtain ⟨cnt, hcnt, hgt⟩ := pruneVal_mem hc
    exact ⟨cmap, cnt, denom, hcm, hcnt, hlk, hgt⟩

/-- Witness for claim C7 on a concrete one-pair input whose single candidate
survives pruning. -/
theorem claim_C7_witness :
    ∃ (cmap : List (Val × Nat)) (cnt denom : Nat),
      (("x" : Val), cmap) ∈ dictify [("x", "y", 3)] ∧ (("y" : Val), cnt) ∈ cmap ∧
      lookup2 [("A", [("x", (2 : Nat))])] "A" "x" = some denom ∧
      (cnt : ℚ) > 1 * (denom : ℚ) := by
  have hpre : preproc_pair_stats 1 [("A", [("x", 2)])] [("A", [("B", [("x", "y", 3)])])] =
      .ok [("A", [("B", [("x", ["y"])])])] := by
    simp [preproc_pair_stats, preprocPairInner, pruneTable, pruneVal, dictify,
      addEntry, lookup2, alookup]
  obtain ⟨iOut, hiOut, h1⟩ := claim_C7 1 [("A", [("x", 2)])]
    [("A", [("B", [("x", "y", 3)])])] [("A", [("B", [("x", ["y"])])])] hpre
    "A" [("B", [("x", "y", 3)])] (List.mem_singleton.mpr rfl) (by decide)
  simp only [List.mem_singleton, Prod.mk.injEq] at hiOut
  obtain ⟨-, hiOut2⟩ := hiOut
  subst hiOut2
  obtain ⟨tbl, htbl, -, h2⟩ := h1 "B" [("x", "y", 3)] (List.mem_singleton.mpr rfl)
  simp only [List.mem_singleton, Prod.mk.injEq] at htbl
  obtain ⟨-, htbl2⟩ := htbl
  subst htbl2
  exact h2 "x" ["y"] (List.mem_singleton.mpr rfl) "y" (List.mem_singleton.mpr rfl)
